import Mathlib

/-!
# Verification of the NEAR Groth16 SDK core

A shallow embedding of the Rust sources in `src/lib/src/` (`types.rs`,
`verifier.rs`, `poseidon.rs`) together with proofs about them.

Conventions of the embedding:
* `U256` values are `Nat`s; the Rust type invariant (`< 2^256`) appears as an
  explicit hypothesis where a statement needs it.
* A 64-bit limb is a `Nat`; a Rust `as u64` truncation is `% 2^64`, a 64-bit
  shift `>> 64` is `/ 2^64`.
* Byte strings are `List Nat` (each element a byte value).
* The `uint` crate's operators panic on overflow; a panicking operation is
  embedded as an `Option`-valued function with `none` for the panic.
* The NEAR host precompiles (`alt_bn128_g1_multiexp`, `alt_bn128_g1_sum`,
  `alt_bn128_pairing_check`) are opaque to the contract; they are a record of
  functions `HostEnv` passed to every operation that calls them.
-/

namespace NearGroth16

/-! ## Byte encodings (uint's `to_big_endian` / `to_little_endian`) -/

/-- Big-endian bytes of `n`, `k` bytes wide: byte `0` is the most significant. -/
def beBytesAux : Nat → Nat → List Nat
  | 0, _ => []
  | k + 1, n => n / 2 ^ (8 * k) % 256 :: beBytesAux k n

/-- `U256::to_be_bytes` (types.rs): 32 big-endian bytes via `to_big_endian`. -/
def U256.to_be_bytes (n : Nat) : List Nat := beBytesAux 32 n

/-- `U256::from_be_bytes` (types.rs): big-endian byte decoding via `from_big_endian`. -/
def U256.from_be_bytes (bs : List Nat) : Nat := bs.foldl (fun acc b => acc * 256 + b) 0

/-- Little-endian bytes of `n`, `k` bytes wide: byte `0` is the least significant. -/
def leBytesAux : Nat → Nat → List Nat
  | 0, _ => []
  | k + 1, n => n % 256 :: leBytesAux k (n / 256)

/-- uint's `to_little_endian` into a 32-byte buffer (verifier.rs scalar encoding). -/
def U256.to_le_bytes (n : Nat) : List Nat := leBytesAux 32 n

/-- Little-endian byte decoding (specification side, used to state that the
scalar encoding is value-faithful). -/
def U256.from_le_bytes (bs : List Nat) : Nat := bs.foldr (fun b acc => acc * 256 + b) 0

/-- uint's `U256::from_dec_str`: digits only, error on a non-decimal character
or on a value that does not fit in 256 bits. -/
def U256.from_dec_str (s : String) : Option Nat :=
  if s.data.all Char.isDigit then
    let v := s.data.foldl (fun acc c => acc * 10 + (c.toNat - 48)) 0
    if v < 2 ^ 256 then some v else none
  else none

/-- The `uint` crate's `U256` subtraction: panics on underflow (`none`). -/
def U256.sub? (a b : Nat) : Option Nat := if b ≤ a then some (a - b) else none

/-! ## Curve points (types.rs) -/

/-- `G1Point`: affine point, `x`/`y` are `U256` (all-zero = point at infinity). -/
structure G1Point where
  x : Nat
  y : Nat
deriving DecidableEq

/-- `G1Point::zero`. -/
def G1Point.zero : G1Point := ⟨0, 0⟩

/-- `G1Point::is_zero`. -/
def G1Point.is_zero (p : G1Point) : Bool := p.x == 0 && p.y == 0

/-- `G1Point::to_bytes`: 64 bytes, `x` big-endian then `y` big-endian. -/
def G1Point.to_bytes (p : G1Point) : List Nat :=
  U256.to_be_bytes p.x ++ U256.to_be_bytes p.y

/-- `G1Point::from_bytes`: inverse layout of `to_bytes`. -/
def G1Point.from_bytes (bs : List Nat) : G1Point :=
  ⟨U256.from_be_bytes (bs.take 32), U256.from_be_bytes (bs.drop 32)⟩

/-- `G1Point::from_json_array`: `["x", "y", ...]`, needs at least two decimal
coordinates; trailing entries (the projective `"1"`) are ignored. -/
def G1Point.from_json_array : List String → Option G1Point
  | sx :: sy :: _ => do
    let x ← U256.from_dec_str sx
    let y ← U256.from_dec_str sy
    pure ⟨x, y⟩
  | _ => none

/-- `G2Point`: affine point over Fq², coordinates `x = [x0, x1]`, `y = [y0, y1]`
meaning `c0 + c1·u`. -/
structure G2Point where
  x0 : Nat
  x1 : Nat
  y0 : Nat
  y1 : Nat
deriving DecidableEq

/-- `G2Point::zero`. -/
def G2Point.zero : G2Point := ⟨0, 0, 0, 0⟩

/-- `G2Point::to_bytes`: 128 bytes in NEAR's imaginary-part-first order
`(x1, x0, y1, y0)`, each coordinate 32 bytes big-endian. -/
def G2Point.to_bytes (p : G2Point) : List Nat :=
  U256.to_be_bytes p.x1 ++ U256.to_be_bytes p.x0 ++
  U256.to_be_bytes p.y1 ++ U256.to_be_bytes p.y0

/-- `G2Point::from_bytes`: inverse of `to_bytes` (reads `x0` from bytes 32..64,
`x1` from 0..32, `y0` from 96..128, `y1` from 64..96). -/
def G2Point.from_bytes (bs : List Nat) : G2Point :=
  { x0 := U256.from_be_bytes ((bs.drop 32).take 32)
    x1 := U256.from_be_bytes (bs.take 32)
    y0 := U256.from_be_bytes ((bs.drop 96).take 32)
    y1 := U256.from_be_bytes ((bs.drop 64).take 32) }

/-- `G2Point::from_json_array`: `[[x0, x1], [y0, y1], ...]`, needs two pairs of
two decimal strings each. -/
def G2Point.from_json_array : List (List String) → Option G2Point
  | (sx0 :: sx1 :: _) :: (sy0 :: sy1 :: _) :: _ => do
    let x0 ← U256.from_dec_str sx0
    let x1 ← U256.from_dec_str sx1
    let y0 ← U256.from_dec_str sy0
    let y1 ← U256.from_dec_str sy1
    pure ⟨x0, x1, y0, y1⟩
  | _ => none

/-- The BN254 base-field modulus hard-coded in `negate_g1` (types.rs). -/
def fieldModulus : Nat :=
  21888242871839275222246405745257275088696311157297823662689037894645226208583

/-- `negate_g1` (types.rs): `-P = (x, p - y)`, the point at infinity is fixed.
The subtraction is the `uint` crate's panicking `Sub`, hence the `Option`. -/
def negate_g1 (p : G1Point) : Option G1Point :=
  if p.is_zero then some p
  else (U256.sub? fieldModulus p.y).map fun neg_y => ⟨p.x, neg_y⟩

/-- `Proof`: `(A : G1, B : G2, C : G1)`. -/
structure Proof where
  a : G1Point
  b : G2Point
  c : G1Point
deriving DecidableEq

/-- `Proof::from_json`. -/
def Proof.from_json (pi_a : List String) (pi_b : List (List String))
    (pi_c : List String) : Option Proof := do
  let a ← G1Point.from_json_array pi_a
  let b ← G2Point.from_json_array pi_b
  let c ← G1Point.from_json_array pi_c
  pure ⟨a, b, c⟩

/-- `VerificationKey`: `(α, β, γ, δ, IC)`. -/
structure VerificationKey where
  alpha : G1Point
  beta : G2Point
  gamma : G2Point
  delta : G2Point
  ic : List G1Point
deriving DecidableEq

/-- `VerificationKey::from_json` (types.rs): parses the five snarkjs fields.
No semantic validation beyond coordinate parsing is performed. -/
def VerificationKey.from_json (vk_alpha_1 : List String)
    (vk_beta_2 vk_gamma_2 vk_delta_2 : List (List String))
    (ic : List (List String)) : Option VerificationKey := do
  let ic_points ← ic.mapM G1Point.from_json_array
  let alpha ← G1Point.from_json_array vk_alpha_1
  let beta ← G2Point.from_json_array vk_beta_2
  let gamma ← G2Point.from_json_array vk_gamma_2
  let delta ← G2Point.from_json_array vk_delta_2
  pure ⟨alpha, beta, gamma, delta, ic_points⟩

/-- `VerificationKey::num_inputs`: `ic.len().saturating_sub(1)` (Nat subtraction
is saturating). -/
def VerificationKey.num_inputs (vk : VerificationKey) : Nat := vk.ic.length - 1

/-! ## The host-capability façade (`near_sdk::env`) -/

/-- The three BN254 precompiles the verifier calls, as opaque byte functions. -/
structure HostEnv where
  g1_multiexp : List Nat → List Nat
  g1_sum : List Nat → List Nat
  pairing_check : List Nat → Bool

/-! ## The Groth16 verifier (verifier.rs) -/

/-- The `multiexp_input` loop body of `Verifier::compute_vk_x`: walks the inputs
with their index, fails (`None` in the source) when `i + 1` is out of `ic`'s
range, skips zero inputs, and for a non-zero input appends the 32-byte
little-endian scalar followed by the 64-byte point `ic[i + 1]`. -/
def buildMsm (vk : VerificationKey) : Nat → List Nat → Option (List Nat)
  | _, [] => some []
  | i, input :: rest =>
    if vk.ic.length ≤ i + 1 then none
    else if input = 0 then buildMsm vk (i + 1) rest
    else do
      let tail ← buildMsm vk (i + 1) rest
      pure (U256.to_le_bytes input ++ (vk.ic.getD (i + 1) G1Point.zero).to_bytes ++ tail)

/-- `Verifier::add_g1_points`: `alt_bn128_g1_sum` on the two concatenated
points, `None` when the host returns a buffer that is not 64 bytes. -/
def add_g1_points (env : HostEnv) (p1 p2 : G1Point) : Option G1Point :=
  let result := env.g1_sum (p1.to_bytes ++ p2.to_bytes)
  if result.length ≠ 64 then none
  else some (G1Point.from_bytes result)

/-- `Verifier::compute_vk_x`: `vk_x = IC[0] + Σ input[i] · IC[i+1]` through the
host MSM, with the source's early returns. -/
def compute_vk_x (env : HostEnv) (vk : VerificationKey) (inputs : List Nat) :
    Option G1Point :=
  match vk.ic with
  | [] => none
  | ic0 :: _ =>
    if inputs = [] then some ic0
    else
      (buildMsm vk 0 inputs).bind fun multiexp_input =>
        if multiexp_input = [] then some ic0
        else
          let multiexp_result := env.g1_multiexp multiexp_input
          if multiexp_result.length ≠ 64 then none
          else add_g1_points env ic0 (G1Point.from_bytes multiexp_result)

/-- `Verifier::pairing_check`: builds the four-pair 768-byte batch
`(-A, B), (α, β), (vk_x, γ), (C, δ)` and asks the host. `negate_g1` may panic
(`none`). -/
def Verifier.pairing_check (env : HostEnv) (vk : VerificationKey) (proof : Proof)
    (vk_x : G1Point) : Option Bool := do
  let neg_a ← negate_g1 proof.a
  pure (env.pairing_check
    (neg_a.to_bytes ++ proof.b.to_bytes ++
     vk.alpha.to_bytes ++ vk.beta.to_bytes ++
     vk_x.to_bytes ++ vk.gamma.to_bytes ++
     proof.c.to_bytes ++ vk.delta.to_bytes))

/-- `Verifier::verify`: length check, `compute_vk_x`, pairing check. `none`
models a panic; `some b` a returned boolean. -/
def Verifier.verify (env : HostEnv) (vk : VerificationKey) (inputs : List Nat)
    (proof : Proof) : Option Bool :=
  if inputs.length ≠ vk.num_inputs then some false
  else
    match compute_vk_x env vk inputs with
    | none => some false
    | some vk_x => Verifier.pairing_check env vk proof vk_x

/-! ## Byte-codec lemmas -/

theorem beBytesAux_length (k n : Nat) : (beBytesAux k n).length = k := by
  induction k generalizing n with
  | zero => rfl
  | succ k ih => simp [beBytesAux, ih]

theorem leBytesAux_length (k n : Nat) : (leBytesAux k n).length = k := by
  induction k generalizing n with
  | zero => rfl
  | succ k ih => simp [leBytesAux, ih]

theorem U256.to_be_bytes_length (n : Nat) : (U256.to_be_bytes n).length = 32 :=
  beBytesAux_length 32 n

theorem U256.to_le_bytes_length (n : Nat) : (U256.to_le_bytes n).length = 32 :=
  leBytesAux_length 32 n

theorem beBytesAux_foldl (k : Nat) (n : Nat) : ∀ acc : Nat,
    (beBytesAux k n).foldl (fun a b => a * 256 + b) acc = acc * 2 ^ (8 * k) + n % 2 ^ (8 * k) := by
  induction k with
  | zero => intro acc; simp [beBytesAux]; omega
  | succ k ih =>
    intro acc
    rw [beBytesAux, List.foldl_cons, ih]
    rw [show 8 * (k + 1) = 8 * k + 8 by ring, pow_add,
      show (2 : Nat) ^ 8 = 256 by norm_num, Nat.mod_mul]
    ring

/-- Big-endian encode/decode round-trips on 256-bit values. -/
theorem U256.from_be_to_be (n : Nat) (h : n < 2 ^ 256) :
    U256.from_be_bytes (U256.to_be_bytes n) = n := by
  unfold U256.from_be_bytes U256.to_be_bytes
  rw [beBytesAux_foldl]
  simpa using Nat.mod_eq_of_lt h

theorem leBytesAux_val (k : Nat) : ∀ n : Nat,
    U256.from_le_bytes (leBytesAux k n) = n % 2 ^ (8 * k) := by
  induction k with
  | zero => intro n; simp [leBytesAux, U256.from_le_bytes]; omega
  | succ k ih =>
    intro n
    unfold U256.from_le_bytes at *
    rw [leBytesAux, List.foldr_cons, ih]
    rw [show 8 * (k + 1) = 8 + 8 * k by ring, pow_add,
      show (2 : Nat) ^ 8 = 256 by norm_num, Nat.mod_mul]
    ring

/-- Little-endian encode/decode round-trips on 256-bit values: the scalar byte
encoding used for the host MSM carries the full unreduced value. -/
theorem U256.from_le_to_le (n : Nat) (h : n < 2 ^ 256) :
    U256.from_le_bytes (U256.to_le_bytes n) = n := by
  unfold U256.to_le_bytes
  rw [leBytesAux_val]
  simpa using Nat.mod_eq_of_lt h

theorem take_append_len (a rest : List Nat) (k : Nat) (h : a.length = k) :
    (a ++ rest).take k = a := by
  subst h; exact List.take_left a rest

theorem drop_append_len (a rest : List Nat) (k : Nat) (h : a.length = k) :
    (a ++ rest).drop k = rest := by
  subst h; exact List.drop_left a rest

theorem G1Point.g1_to_bytes_length (p : G1Point) : p.to_bytes.length = 64 := by
  simp [G1Point.to_bytes, U256.to_be_bytes_length]

theorem G2Point.g2_to_bytes_length (p : G2Point) : p.to_bytes.length = 128 := by
  simp [G2Point.to_bytes, U256.to_be_bytes_length]

/-- C9, G1 half. -/
theorem G1Point.g1_from_to_bytes (p : G1Point) (hx : p.x < 2 ^ 256) (hy : p.y < 2 ^ 256) :
    G1Point.from_bytes p.to_bytes = p := by
  obtain ⟨x, y⟩ := p
  unfold G1Point.from_bytes G1Point.to_bytes
  rw [take_append_len _ _ 32 (U256.to_be_bytes_length x),
    drop_append_len _ _ 32 (U256.to_be_bytes_length x),
    U256.from_be_to_be x hx, U256.from_be_to_be y hy]

/-- C9, G2 half: `from_bytes` undoes the imaginary-part-first layout. -/
theorem G2Point.g2_from_to_bytes (p : G2Point) (hx0 : p.x0 < 2 ^ 256)
    (hx1 : p.x1 < 2 ^ 256) (hy0 : p.y0 < 2 ^ 256) (hy1 : p.y1 < 2 ^ 256) :
    G2Point.from_bytes p.to_bytes = p := by
  obtain ⟨x0, x1, y0, y1⟩ := p
  simp only at hx0 hx1 hy0 hy1
  unfold G2Point.from_bytes G2Point.to_bytes
  simp only [List.append_assoc]
  have l1 := U256.to_be_bytes_length x1
  have l0 := U256.to_be_bytes_length x0
  have ly1 := U256.to_be_bytes_length y1
  have ly0 := U256.to_be_bytes_length y0
  have hd32 : (U256.to_be_bytes x1 ++ (U256.to_be_bytes x0 ++
      (U256.to_be_bytes y1 ++ U256.to_be_bytes y0))).drop 32 =
      U256.to_be_bytes x0 ++ (U256.to_be_bytes y1 ++ U256.to_be_bytes y0) :=
    drop_append_len _ _ 32 l1
  have hd64 : (U256.to_be_bytes x1 ++ (U256.to_be_bytes x0 ++
      (U256.to_be_bytes y1 ++ U256.to_be_bytes y0))).drop 64 =
      U256.to_be_bytes y1 ++ U256.to_be_bytes y0 := by
    rw [← List.append_assoc]
    exact drop_append_len _ _ 64 (by rw [List.length_append, l1, l0])
  have hd96 : (U256.to_be_bytes x1 ++ (U256.to_be_bytes x0 ++
      (U256.to_be_bytes y1 ++ U256.to_be_bytes y0))).drop 96 =
      U256.to_be_bytes y0 := by
    rw [← List.append_assoc, ← List.append_assoc]
    exact drop_append_len _ _ 96
      (by rw [List.length_append, List.length_append, l1, l0, ly1])
  rw [hd32, hd64, hd96]
  rw [take_append_len _ _ 32 l1, take_append_len _ _ 32 l0,
    take_append_len _ _ 32 ly1, List.take_of_length_le (le_of_eq ly0)]
  rw [U256.from_be_to_be x0 hx0, U256.from_be_to_be x1 hx1,
    U256.from_be_to_be y0 hy0, U256.from_be_to_be y1 hy1]

/-- C9: the byte codecs round-trip. For every G1 point `P` (coordinates being
`U256`, hence below `2^256`), `from_bytes (to_bytes P) = P`; for every G2 point
likewise; and G2's `to_bytes` emits exactly the imaginary-part-first layout
`[x1, x0, y1, y0]`, each 32 bytes big-endian, which `from_bytes` inverts. -/
theorem C9_codec_roundtrip :
    (∀ p : G1Point, p.x < 2 ^ 256 → p.y < 2 ^ 256 →
      G1Point.from_bytes p.to_bytes = p) ∧
    (∀ p : G2Point, p.x0 < 2 ^ 256 → p.x1 < 2 ^ 256 → p.y0 < 2 ^ 256 → p.y1 < 2 ^ 256 →
      G2Point.from_bytes p.to_bytes = p) ∧
    (∀ p : G2Point, p.to_bytes =
      U256.to_be_bytes p.x1 ++ U256.to_be_bytes p.x0 ++
      U256.to_be_bytes p.y1 ++ U256.to_be_bytes p.y0) := by
  refine ⟨fun p hx hy => G1Point.g1_from_to_bytes p hx hy,
    fun p h0 h1 h2 h3 => G2Point.g2_from_to_bytes p h0 h1 h2 h3,
    fun p => rfl⟩

/-! ## Specification-side descriptions (the claims' words) -/

/-- The MSM request described by the spec: concatenation, over the non-zero
`inputs[i]` in index order (zero inputs omitted), of the 32-byte little-endian
scalar followed by the 64-byte big-endian `IC[i+1]`. -/
def msmSpec (ic : List G1Point) : Nat → List Nat → List Nat
  | _, [] => []
  | i, input :: rest =>
    if input = 0 then msmSpec ic (i + 1) rest
    else U256.to_le_bytes input ++ (ic.getD (i + 1) G1Point.zero).to_bytes ++
      msmSpec ic (i + 1) rest

/-- The G1 negation described by the spec: `-(x, y) = (x, q − y)` with `q` the
base-field modulus; a point with both coordinates zero is left unchanged. -/
def negSpec (p : G1Point) : G1Point :=
  if p.x = 0 ∧ p.y = 0 then p else ⟨p.x, fieldModulus - p.y⟩

/-- The 4·192-byte pairing batch described by the spec: the four `(G1, G2)`
pairs `(−A, B), (α, β), (vk_x, γ), (C, δ)` concatenated in this order. -/
def pairingBufferSpec (vk : VerificationKey) (proof : Proof) (vk_x : G1Point) :
    List Nat :=
  (negSpec proof.a).to_bytes ++ proof.b.to_bytes ++
  vk.alpha.to_bytes ++ vk.beta.to_bytes ++
  vk_x.to_bytes ++ vk.gamma.to_bytes ++
  proof.c.to_bytes ++ vk.delta.to_bytes

/-! ## Verifier lemmas -/

theorem buildMsm_eq (vk : VerificationKey) (inputs : List Nat) : ∀ i : Nat,
    i + inputs.length + 1 ≤ vk.ic.length →
    buildMsm vk i inputs = some (msmSpec vk.ic i inputs) := by
  induction inputs with
  | nil => intro i _; rfl
  | cons input rest ih =>
    intro i hlen
    simp only [List.length_cons] at hlen
    rw [buildMsm, msmSpec]
    rw [if_neg (by omega)]
    by_cases hz : input = 0
    · rw [if_pos hz, if_pos hz]
      exact ih (i + 1) (by omega)
    · rw [if_neg hz, if_neg hz, ih (i + 1) (by omega)]
      rfl

theorem msmSpec_nil_iff (ic : List G1Point) (inputs : List Nat) : ∀ i : Nat,
    (msmSpec ic i inputs = [] ↔ inputs.all (fun x => x == 0) = true) := by
  induction inputs with
  | nil => intro i; simp [msmSpec]
  | cons input rest ih =>
    intro i
    rw [msmSpec, List.all_cons]
    by_cases hz : input = 0
    · simp [hz, ih (i + 1)]
    · rw [if_neg hz]
      constructor
      · intro h
        have hl := congrArg List.length h
        simp [U256.to_le_bytes_length] at hl
      · intro h
        simp [hz] at h

/-- C3: `compute_vk_x` at a matching input length. When every input is zero the
result is `IC[0]` independently of the host; otherwise it is the host `g1_sum`
of `IC[0]` and the host `g1_multiexp` of exactly the spec's MSM byte string. -/
theorem C3_compute_vk_x (env : HostEnv) (vk : VerificationKey) (inputs : List Nat)
    (ic0 : G1Point) (rest : List G1Point)
    (hic : vk.ic = ic0 :: rest)
    (hlen : inputs.length = vk.num_inputs)
    (hm : (env.g1_multiexp (msmSpec vk.ic 0 inputs)).length = 64)
    (hs : (env.g1_sum (ic0.to_bytes ++ (G1Point.from_bytes
        (env.g1_multiexp (msmSpec vk.ic 0 inputs))).to_bytes)).length = 64) :
    compute_vk_x env vk inputs =
      if inputs.all (fun x => x == 0) then some ic0
      else some (G1Point.from_bytes (env.g1_sum (ic0.to_bytes ++
        (G1Point.from_bytes (env.g1_multiexp (msmSpec vk.ic 0 inputs))).to_bytes))) := by
  have hlen' : inputs.length = rest.length := by
    rw [hlen, VerificationKey.num_inputs, hic]
    simp
  have hb : buildMsm vk 0 inputs = some (msmSpec vk.ic 0 inputs) :=
    buildMsm_eq vk inputs 0 (by rw [hic]; simp [hlen'])
  unfold compute_vk_x
  rw [hic]
  simp only []
  by_cases hz : inputs.all (fun x => x == 0) = true
  · rw [if_pos hz]
    by_cases hnil : inputs = []
    · rw [if_pos hnil]
    · rw [if_neg hnil, hb, Option.some_bind]
      rw [if_pos ((msmSpec_nil_iff vk.ic inputs 0).mpr hz)]
  · rw [if_neg hz]
    have hnil : inputs ≠ [] := by
      intro h; exact hz (by simp [h])
    rw [if_neg hnil, hb, Option.some_bind]
    rw [if_neg (fun h => hz ((msmSpec_nil_iff vk.ic inputs 0).mp h))]
    rw [if_neg (by rw [hm]; omega)]
    unfold add_g1_points
    rw [if_neg (by rw [hs]; omega), ← hic]

/-- C10: the scalar bytes in the MSM request are the input's full 256-bit value,
unreduced: the loop produces exactly the spec byte string whose scalars are the
raw little-endian values, and little-endian decoding recovers any 256-bit value
(in particular values at or above the scalar-field modulus `r`). -/
theorem C10_unreduced_scalars (vk : VerificationKey) (inputs : List Nat)
    (ic0 : G1Point) (rest : List G1Point)
    (hic : vk.ic = ic0 :: rest)
    (hlen : inputs.length = vk.num_inputs) :
    buildMsm vk 0 inputs = some (msmSpec vk.ic 0 inputs) ∧
    (∀ x : Nat, x < 2 ^ 256 → U256.from_le_bytes (U256.to_le_bytes x) = x) := by
  have hlen' : inputs.length = rest.length := by
    rw [hlen, VerificationKey.num_inputs, hic]
    simp
  exact ⟨buildMsm_eq vk inputs 0 (by rw [hic]; simp [hlen']),
    fun x hx => U256.from_le_to_le x hx⟩

/-- `negate_g1` agrees with the spec's description whenever `A.y ≤ q` (otherwise
the `uint` subtraction underflows and panics, see the C1 theorem). -/
theorem negate_g1_eq (p : G1Point) (hy : p.y ≤ fieldModulus) :
    negate_g1 p = some (negSpec p) := by
  unfold negate_g1 negSpec
  by_cases hz : p.is_zero = true
  · have hxy : p.x = 0 ∧ p.y = 0 := by
      simpa [G1Point.is_zero] using hz
    rw [if_pos hz, if_pos hxy]
  · have hxy : ¬(p.x = 0 ∧ p.y = 0) := by
      intro h
      exact hz (by simp [G1Point.is_zero, h.1, h.2])
    rw [Bool.not_eq_true] at hz
    rw [if_neg (by simp [hz]), if_neg hxy]
    rw [U256.sub?, if_pos hy]
    rfl

/-- C2: whenever verification reaches the pairing step (input length matches,
`vk_x` computed) and `A.y ≤ q` so that the negation is defined, `verify` returns
exactly the host `pairing_check` of the spec's four-pair buffer, which is
4·192 bytes long. -/
theorem C2_pairing_step (env : HostEnv) (vk : VerificationKey) (inputs : List Nat)
    (proof : Proof) (vk_x : G1Point)
    (hlen : inputs.length = vk.num_inputs)
    (hvkx : compute_vk_x env vk inputs = some vk_x)
    (hy : proof.a.y ≤ fieldModulus) :
    Verifier.verify env vk inputs proof =
      some (env.pairing_check (pairingBufferSpec vk proof vk_x)) ∧
    (pairingBufferSpec vk proof vk_x).length = 4 * 192 := by
  constructor
  · unfold Verifier.verify
    rw [if_neg (by rw [hlen]; omega), hvkx]
    unfold Verifier.pairing_check
    rw [negate_g1_eq proof.a hy]
    rfl
  · unfold pairingBufferSpec
    simp [G1Point.g1_to_bytes_length, G2Point.g2_to_bytes_length]

/-- C7: a mismatched input count makes `verify` return `false` immediately, for
every host environment (so no host primitive influences the result) and without
reaching any panicking operation. -/
theorem C7_length_mismatch (env : HostEnv) (vk : VerificationKey)
    (inputs : List Nat) (proof : Proof)
    (h : inputs.length ≠ vk.num_inputs) :
    Verifier.verify env vk inputs proof = some false := by
  unfold Verifier.verify
  rw [if_pos h]

/-! ## Concrete inputs for counterexamples and witnesses -/

/-- A VK with a single IC point (`num_inputs = 0`). -/
def vkSingleIC : VerificationKey :=
  ⟨G1Point.zero, G2Point.zero, G2Point.zero, G2Point.zero, [G1Point.zero]⟩

/-- A proof whose `A.y` exceeds the base-field modulus `q` (its coordinates are
valid `U256` values, so this is a well-typed proof). -/
def proofBigAy : Proof :=
  ⟨⟨1, fieldModulus + 1⟩, G2Point.zero, G1Point.zero⟩

/-- C1 (refuting totality): with `A = (1, q + 1)` the subtraction `q − A.y` in
`negate_g1` underflows and the `uint` crate panics, for every host environment:
`verify` does not return a boolean. -/
theorem C1_negate_underflow (env : HostEnv) :
    Verifier.verify env vkSingleIC [] proofBigAy = none := rfl

/-- A benign proof (all coordinates small). -/
def proofSmall : Proof := ⟨⟨1, 2⟩, ⟨3, 4, 5, 6⟩, ⟨7, 8⟩⟩

/-- A host that always answers with a 64-byte buffer / `true`. -/
def hostConst : HostEnv :=
  ⟨fun _ => List.replicate 64 0, fun _ => List.replicate 64 0, fun _ => true⟩

/-- C2 counterexample: a proof with `A = (2, q+1)` reaches the pairing step
(the input length matches and `vk_x` was computed), yet `verify` does not
return the host `pairing_check` result — it panics in the negation. -/
theorem C2_pairing_panic :
    Verifier.verify hostConst vkSingleIC []
      ⟨⟨2, fieldModulus + 1⟩, G2Point.zero, G1Point.zero⟩ = none := rfl

/-- C7 witness: truncating the input vector of a 1-input VK to zero length. -/
def vkTwoIC : VerificationKey :=
  ⟨⟨1, 2⟩, ⟨3, 4, 5, 6⟩, ⟨3, 4, 5, 6⟩, ⟨3, 4, 5, 6⟩, [⟨9, 10⟩, ⟨11, 12⟩]⟩

theorem C7_length_mismatch_witness :
    Verifier.verify hostConst vkTwoIC [] proofSmall = some false :=
  C7_length_mismatch hostConst vkTwoIC [] proofSmall (by decide)

/-- C2 witness at a concrete VK, proof and host. -/
theorem C2_pairing_step_witness :
    Verifier.verify hostConst vkSingleIC [] proofSmall =
      some (hostConst.pairing_check
        (pairingBufferSpec vkSingleIC proofSmall G1Point.zero)) ∧
    (pairingBufferSpec vkSingleIC proofSmall G1Point.zero).length = 4 * 192 :=
  C2_pairing_step hostConst vkSingleIC [] proofSmall G1Point.zero (by decide)
    (by rfl) (by decide)

/-- C3 witness at a concrete VK with one non-zero input. -/
theorem C3_compute_vk_x_witness :
    compute_vk_x hostConst vkTwoIC [5] =
      if [5].all (fun x => x == 0) then some ⟨9, 10⟩
      else some (G1Point.from_bytes (hostConst.g1_sum ((G1Point.to_bytes ⟨9, 10⟩) ++
        (G1Point.from_bytes (hostConst.g1_multiexp
          (msmSpec vkTwoIC.ic 0 [5]))).to_bytes))) :=
  C3_compute_vk_x hostConst vkTwoIC [5] ⟨9, 10⟩ [⟨11, 12⟩] (by rfl) (by decide)
    (by simp [hostConst]) (by simp [hostConst])

/-- A 256-bit scalar at `r + 5`, above the scalar-field modulus. -/
def scalarAboveR : Nat :=
  21888242871839275222246405745257275088548364400416034343698204186575808495622

/-- C10 witness: an input above `r` flows through unreduced. -/
theorem C10_unreduced_scalars_witness :
    buildMsm vkTwoIC 0 [scalarAboveR] = some (msmSpec vkTwoIC.ic 0 [scalarAboveR]) ∧
    (∀ x : Nat, x < 2 ^ 256 → U256.from_le_bytes (U256.to_le_bytes x) = x) :=
  C10_unreduced_scalars vkTwoIC [scalarAboveR] ⟨9, 10⟩ [⟨11, 12⟩] (by rfl) (by decide)

/-! ## C8: the verification-key parser and the missing IC check -/

/-- snarkjs-shaped G1 coordinate array. -/
def g1Json : List String := ["1", "2", "1"]

/-- snarkjs-shaped G2 coordinate array. -/
def g2Json : List (List String) := [["1", "2"], ["3", "4"], ["1", "0"]]

/-- C8 counterexample: a VK whose `IC` array is empty parses successfully —
`from_json` performs no IC non-emptiness validation, refuting the claimed parse
error. -/
theorem C8_empty_ic_parses :
    VerificationKey.from_json g1Json g2Json g2Json g2Json [] =
      some ⟨⟨1, 2⟩, ⟨1, 2, 3, 4⟩, ⟨1, 2, 3, 4⟩, ⟨1, 2, 3, 4⟩, []⟩ := by decide

/-- C8 amended: the parser performs no IC non-emptiness check (an empty-`IC` VK
parses whenever its point fields parse, yielding `ic = []` and `num_inputs = 0`,
rejected only later by `compute_vk_x`); and for every VK, `num_inputs` is
`len(IC) − 1` with saturating subtraction. -/
theorem C8_no_ic_validation :
    (∀ vk : VerificationKey, vk.num_inputs = vk.ic.length - 1) ∧
    (∀ a : List String, ∀ b g d : List (List String), ∀ vk' : VerificationKey,
      VerificationKey.from_json a b g d [] = some vk' →
      vk'.ic = [] ∧ vk'.num_inputs = 0) ∧
    VerificationKey.from_json g1Json g2Json g2Json g2Json [] ≠ none := by
  refine ⟨fun vk => rfl, ?_, by rw [C8_empty_ic_parses]; simp⟩
  intro a b g d vk' h
  unfold VerificationKey.from_json at h
  simp only [List.mapM_nil, Option.bind_eq_bind, Option.pure_def, Option.bind_eq_some,
    Option.some.injEq] at h
  obtain ⟨icp, hicp, alpha, _, beta, _, gamma, _, delta, _, hvk⟩ := h
  subst hvk
  constructor <;> simp [VerificationKey.num_inputs, ← hicp]

/-! ## The scalar field Fr (poseidon.rs)

Four 64-bit little-endian limbs; a Rust `u64` is a `Nat` kept below `2^64`
(`Fr.Wf`), `as u64` is `% 2^64`, `>> 64` is `/ 2^64`. -/

/-- `MODULUS[0..3]`: the little-endian 64-bit limbs of `r`. -/
def M0 : Nat := 0x43e1f593f0000001

def M1 : Nat := 0x2833e84879b97091

def M2 : Nat := 0xb85045b68181585d

def M3 : Nat := 0x30644e72e131a029

/-- `P_PRIME = -r⁻¹ mod 2^64`. -/
def P_PRIME : Nat := 0xc2e1f593efffffff

/-- The scalar-field modulus `r` as a value. -/
def rVal : Nat :=
  21888242871839275222246405745257275088548364400416034343698204186575808495617

/-- `Fr`: field element as 4 × 64-bit limbs, little-endian. -/
structure Fr where
  l0 : Nat
  l1 : Nat
  l2 : Nat
  l3 : Nat
deriving DecidableEq

/-- The value held by the limbs. -/
def Fr.val (a : Fr) : Nat :=
  a.l0 + 2 ^ 64 * a.l1 + 2 ^ 128 * a.l2 + 2 ^ 192 * a.l3

/-- Rust type invariant: each limb fits in a `u64`. -/
def Fr.Wf (a : Fr) : Prop :=
  a.l0 < 2 ^ 64 ∧ a.l1 < 2 ^ 64 ∧ a.l2 < 2 ^ 64 ∧ a.l3 < 2 ^ 64

instance (a : Fr) : Decidable a.Wf := by unfold Fr.Wf; infer_instance

/-- The claim's "canonical": well-formed limbs holding a value below `r`. -/
def Fr.Canonical (a : Fr) : Prop := a.Wf ∧ a.val < rVal

instance (a : Fr) : Decidable a.Canonical := by unfold Fr.Canonical; infer_instance

/-- `MODULUS` as limbs. -/
def MODULUS_FR : Fr := ⟨M0, M1, M2, M3⟩

/-- `R2 = R² mod r` as limbs. -/
def R2_FR : Fr :=
  ⟨0x1bb8e645ae216da7, 0x53fe3ab1e35c59e3, 0x8c49833d53bb8085, 0x0216d0b17f4e44a5⟩

/-- `Fr::ZERO`. -/
def Fr.ZERO : Fr := ⟨0, 0, 0, 0⟩

/-- `Fr::from_u64`. -/
def Fr.from_u64 (n : Nat) : Fr := ⟨n, 0, 0, 0⟩

/-- `Fr::is_zero`. -/
def Fr.is_zero (a : Fr) : Bool :=
  a.l0 == 0 && a.l1 == 0 && a.l2 == 0 && a.l3 == 0

/-- `(choice as u64).wrapping_neg()`. -/
def maskOf (choice : Bool) : Nat := (2 ^ 64 - (if choice then 1 else 0)) % 2 ^ 64

/-- `ct_select`: bit-mask select of `a` (choice true) or `b` (choice false). -/
def ct_select (choice : Bool) (a b : Fr) : Fr :=
  let mask := maskOf choice
  let nmask := mask ^^^ (2 ^ 64 - 1)
  ⟨a.l0 &&& mask ||| b.l0 &&& nmask,
   a.l1 &&& mask ||| b.l1 &&& nmask,
   a.l2 &&& mask ||| b.l2 &&& nmask,
   a.l3 &&& mask ||| b.l3 &&& nmask⟩

/-- One limb comparison step of `ct_gte` (tri-state accumulator in an `i8`). -/
def ct_gte_step (ai bi : Nat) (state : Int) : Int :=
  let is_greater : Int := if bi < ai then 1 else 0
  let is_less : Int := if ai < bi then 1 else 0
  let still_equal : Int := if state = 0 then 1 else 0
  state + still_equal * (is_greater - is_less)

/-- `ct_gte`: limbs walked from most to least significant. -/
def ct_gte (a b : Fr) : Bool :=
  decide (0 ≤ ct_gte_step a.l0 b.l0 (ct_gte_step a.l1 b.l1
    (ct_gte_step a.l2 b.l2 (ct_gte_step a.l3 b.l3 0))))

/-- `Fr::gte_modulus`. -/
def Fr.gte_modulus (a : Fr) : Bool := ct_gte a MODULUS_FR

/-- One subtract-with-borrow limb step (the source's `i128` diff pattern). -/
def sbb (a b borrow : Nat) : Nat × Nat :=
  let diff : Int := (a : Int) - (b : Int) - (borrow : Int)
  if diff < 0 then ((diff + 2 ^ 64).toNat, 1) else (diff.toNat, 0)

/-- The 4-limb borrow chain shared by `sub`'s direct path, `sub_internal` and
`sub_modulus`; the final borrow is returned (the source drops it). -/
def Fr.sub_limbs (a b : Fr) : Fr × Nat :=
  let r0 := sbb a.l0 b.l0 0
  let r1 := sbb a.l1 b.l1 r0.2
  let r2 := sbb a.l2 b.l2 r1.2
  let r3 := sbb a.l3 b.l3 r2.2
  (⟨r0.1, r1.1, r2.1, r3.1⟩, r3.2)

/-- `Fr::sub_internal`. -/
def Fr.sub_internal (a b : Fr) : Fr := (Fr.sub_limbs a b).1

/-- `Fr::sub_modulus`. -/
def Fr.sub_modulus (a : Fr) : Fr := (Fr.sub_limbs a MODULUS_FR).1

/-- The 4-limb carry chain shared by `add` and `add_modulus`, with carry out. -/
def Fr.add_limbs (a b : Fr) : Fr × Nat :=
  let s0 := a.l0 + b.l0
  let s1 := a.l1 + b.l1 + s0 / 2 ^ 64
  let s2 := a.l2 + b.l2 + s1 / 2 ^ 64
  let s3 := a.l3 + b.l3 + s2 / 2 ^ 64
  (⟨s0 % 2 ^ 64, s1 % 2 ^ 64, s2 % 2 ^ 64, s3 % 2 ^ 64⟩, s3 / 2 ^ 64)

/-- `Fr::add_modulus` (the final carry is dropped, as in the source). -/
def Fr.add_modulus (a : Fr) : Fr := (Fr.add_limbs a MODULUS_FR).1

/-- `Fr::add`: carry chain, then branch-free conditional reduction. -/
def Fr.add (a b : Fr) : Fr :=
  let r := (Fr.add_limbs a b).1
  let carry := (Fr.add_limbs a b).2
  let reduced := r.sub_modulus
  ct_select (decide (0 < carry) || ct_gte r MODULUS_FR) reduced r

/-- `Fr::sub`: both paths computed, branch-free select on `a ≥ b`. -/
def Fr.sub (a b : Fr) : Fr :=
  let result_direct := (Fr.sub_limbs a b).1
  let result_with_mod := (a.add_modulus).sub_internal b
  ct_select (ct_gte a b) result_direct result_with_mod

/-- The 5-limb accumulator `t` of the CIOS loops. -/
structure Limbs5 where
  t0 : Nat
  t1 : Nat
  t2 : Nat
  t3 : Nat
  t4 : Nat
deriving DecidableEq

/-- Value of the 5-limb accumulator. -/
def Limbs5.val (t : Limbs5) : Nat :=
  t.t0 + 2 ^ 64 * t.t1 + 2 ^ 128 * t.t2 + 2 ^ 192 * t.t3 + 2 ^ 256 * t.t4

/-- The multiply-accumulate inner loop of one CIOS iteration:
`t += a_i · b`, with the final carry into `t[4]` truncated to a `u64`. -/
def ciosMulAcc (t : Limbs5) (ai : Nat) (b : Fr) : Limbs5 :=
  let u0 := t.t0 + ai * b.l0
  let u1 := t.t1 + ai * b.l1 + u0 / 2 ^ 64
  let u2 := t.t2 + ai * b.l2 + u1 / 2 ^ 64
  let u3 := t.t3 + ai * b.l3 + u2 / 2 ^ 64
  ⟨u0 % 2 ^ 64, u1 % 2 ^ 64, u2 % 2 ^ 64, u3 % 2 ^ 64, (t.t4 + u3 / 2 ^ 64) % 2 ^ 64⟩

/-- The Montgomery-reduction inner loop of one CIOS iteration:
`m = t[0]·p' mod 2^64; t = (t + m·MODULUS) >> 64`. -/
def ciosRed (u : Limbs5) : Limbs5 :=
  let m := u.t0 * P_PRIME % 2 ^ 64
  let c := (u.t0 + m * M0) / 2 ^ 64
  let v0 := u.t1 + m * M1 + c
  let v1 := u.t2 + m * M2 + v0 / 2 ^ 64
  let v2 := u.t3 + m * M3 + v1 / 2 ^ 64
  let v3 := u.t4 + v2 / 2 ^ 64
  ⟨v0 % 2 ^ 64, v1 % 2 ^ 64, v2 % 2 ^ 64, v3 % 2 ^ 64, v3 / 2 ^ 64⟩

/-- One outer iteration of the CIOS loop in `Fr::mul`: the two inner loops. -/
def ciosRound (t : Limbs5) (ai : Nat) (b : Fr) : Limbs5 :=
  ciosRed (ciosMulAcc t ai b)

/-- The full CIOS pass (`for i in 0..4`), as in both halves of `Fr::mul`. -/
def cios (a b : Fr) : Limbs5 :=
  ciosRound (ciosRound (ciosRound (ciosRound ⟨0, 0, 0, 0, 0⟩ a.l0 b) a.l1 b) a.l2 b) a.l3 b

/-- One Montgomery pass of `Fr::mul` (both halves of the source have exactly
this structure): a CIOS loop, then the branch-free conditional reduction
selected on `gte_modulus() || t[4] > 0`. -/
def montPass (x b : Fr) : Fr :=
  let t := cios x b
  let montgomery_result : Fr := ⟨t.t0, t.t1, t.t2, t.t3⟩
  ct_select (montgomery_result.gte_modulus || decide (0 < t.t4))
    montgomery_result.sub_modulus montgomery_result

/-- `Fr::mul`: one CIOS pass (giving `a·b·R⁻¹`), branch-free reduction, a second
CIOS pass against `R²`, and a final branch-free reduction. -/
def Fr.mul (a b : Fr) : Fr := montPass (montPass a b) R2_FR

/-- `Fr::pow5`. -/
def Fr.pow5 (x : Fr) : Fr :=
  let x2 := x.mul x
  let x4 := x2.mul x2
  x4.mul x

/-- Rust's `char::to_digit(10)`. -/
def charDigit (c : Char) : Option Nat :=
  if c.isDigit then some (c.toNat - 48) else none

/-- `Fr::from_str`: non-digit characters are skipped; the running value is
reduced modulo `r` by the `mul`/`add` arithmetic. It never fails. -/
def Fr.from_str (s : String) : Fr :=
  if s = "" || s = "0" then Fr.ZERO
  else
    s.data.foldl (fun result c =>
      match charDigit c with
      | some digit => (result.mul (Fr.from_u64 10)).add (Fr.from_u64 digit)
      | none => result) Fr.ZERO

/-! ## Constant-time primitive lemmas -/

theorem ct_select_eq (c : Bool) (a b : Fr) (ha : a.Wf) (hb : b.Wf) :
    ct_select c a b = if c then a else b := by
  obtain ⟨a0, a1, a2, a3⟩ := a
  obtain ⟨b0, b1, b2, b3⟩ := b
  obtain ⟨ha0, ha1, ha2, ha3⟩ := ha
  obtain ⟨hb0, hb1, hb2, hb3⟩ := hb
  simp only at ha0 ha1 ha2 ha3 hb0 hb1 hb2 hb3
  cases c with
  | true =>
    unfold ct_select maskOf
    simp only [if_pos rfl, if_true]
    rw [Nat.mod_eq_of_lt (by norm_num), Nat.xor_self]
    simp only [Nat.and_pow_two_sub_one_eq_mod, Nat.and_zero, Nat.or_zero]
    rw [Nat.mod_eq_of_lt ha0, Nat.mod_eq_of_lt ha1, Nat.mod_eq_of_lt ha2,
      Nat.mod_eq_of_lt ha3]
  | false =>
    unfold ct_select maskOf
    simp only [if_neg Bool.false_ne_true, if_false]
    rw [Nat.sub_zero, Nat.mod_self, Nat.zero_xor]
    simp only [Nat.and_zero, Nat.and_pow_two_sub_one_eq_mod, Nat.zero_or]
    rw [Nat.mod_eq_of_lt hb0, Nat.mod_eq_of_lt hb1, Nat.mod_eq_of_lt hb2,
      Nat.mod_eq_of_lt hb3]

theorem ct_gte_step_eq (ai bi : Nat) (s : Int) (h : ai = bi) :
    ct_gte_step ai bi s = s := by
  subst h
  simp [ct_gte_step]

theorem ct_gte_step_ne (ai bi : Nat) (s : Int) (h : s ≠ 0) :
    ct_gte_step ai bi s = s := by
  simp [ct_gte_step, h]

theorem ct_gte_step_gt (ai bi : Nat) (h : bi < ai) : ct_gte_step ai bi 0 = 1 := by
  simp [ct_gte_step, h, Nat.lt_asymm h]

theorem ct_gte_step_lt (ai bi : Nat) (h : ai < bi) : ct_gte_step ai bi 0 = -1 := by
  simp [ct_gte_step, h, Nat.lt_asymm h]

/-- `ct_gte` decides exactly `b.val ≤ a.val` on well-formed limbs. -/
theorem ct_gte_spec (a b : Fr) (ha : a.Wf) (hb : b.Wf) :
    ct_gte a b = decide (b.val ≤ a.val) := by
  obtain ⟨a0, a1, a2, a3⟩ := a
  obtain ⟨b0, b1, b2, b3⟩ := b
  obtain ⟨ha0, ha1, ha2, ha3⟩ := ha
  obtain ⟨hb0, hb1, hb2, hb3⟩ := hb
  simp only at ha0 ha1 ha2 ha3 hb0 hb1 hb2 hb3
  unfold ct_gte Fr.val
  simp only
  rcases lt_trichotomy a3 b3 with h3 | h3 | h3
  · rw [ct_gte_step_lt _ _ h3, ct_gte_step_ne a2 b2 (-1) (by norm_num),
      ct_gte_step_ne a1 b1 (-1) (by norm_num), ct_gte_step_ne a0 b0 (-1) (by norm_num)]
    have hv : ¬(b0 + 2 ^ 64 * b1 + 2 ^ 128 * b2 + 2 ^ 192 * b3 ≤
        a0 + 2 ^ 64 * a1 + 2 ^ 128 * a2 + 2 ^ 192 * a3) := by omega
    simp only [decide_eq_decide]
    omega
  · rw [ct_gte_step_eq _ _ _ h3]
    rcases lt_trichotomy a2 b2 with h2 | h2 | h2
    · rw [ct_gte_step_lt _ _ h2, ct_gte_step_ne a1 b1 (-1) (by norm_num),
        ct_gte_step_ne a0 b0 (-1) (by norm_num)]
      have hv : ¬(b0 + 2 ^ 64 * b1 + 2 ^ 128 * b2 + 2 ^ 192 * b3 ≤
          a0 + 2 ^ 64 * a1 + 2 ^ 128 * a2 + 2 ^ 192 * a3) := by omega
      simp only [decide_eq_decide]
      omega
    · rw [ct_gte_step_eq _ _ _ h2]
      rcases lt_trichotomy a1 b1 with h1 | h1 | h1
      · rw [ct_gte_step_lt _ _ h1, ct_gte_step_ne a0 b0 (-1) (by norm_num)]
        have hv : ¬(b0 + 2 ^ 64 * b1 + 2 ^ 128 * b2 + 2 ^ 192 * b3 ≤
            a0 + 2 ^ 64 * a1 + 2 ^ 128 * a2 + 2 ^ 192 * a3) := by omega
        simp only [decide_eq_decide]
        omega
      · rw [ct_gte_step_eq _ _ _ h1]
        rcases lt_trichotomy a0 b0 with h0 | h0 | h0
        · rw [ct_gte_step_lt _ _ h0]
          have hv : ¬(b0 + 2 ^ 64 * b1 + 2 ^ 128 * b2 + 2 ^ 192 * b3 ≤
              a0 + 2 ^ 64 * a1 + 2 ^ 128 * a2 + 2 ^ 192 * a3) := by omega
          simp only [decide_eq_decide]
          omega
        · rw [ct_gte_step_eq _ _ _ h0]
          have hv : b0 + 2 ^ 64 * b1 + 2 ^ 128 * b2 + 2 ^ 192 * b3 ≤
              a0 + 2 ^ 64 * a1 + 2 ^ 128 * a2 + 2 ^ 192 * a3 := by omega
          simp only [decide_eq_decide]
          omega
        · rw [ct_gte_step_gt _ _ h0]
          have hv : b0 + 2 ^ 64 * b1 + 2 ^ 128 * b2 + 2 ^ 192 * b3 ≤
              a0 + 2 ^ 64 * a1 + 2 ^ 128 * a2 + 2 ^ 192 * a3 := by omega
          simp only [decide_eq_decide]
          omega
      · rw [ct_gte_step_gt _ _ h1, ct_gte_step_ne a0 b0 1 (by norm_num)]
        have hv : b0 + 2 ^ 64 * b1 + 2 ^ 128 * b2 + 2 ^ 192 * b3 ≤
            a0 + 2 ^ 64 * a1 + 2 ^ 128 * a2 + 2 ^ 192 * a3 := by omega
        simp only [decide_eq_decide]
        omega
    · rw [ct_gte_step_gt _ _ h2, ct_gte_step_ne a1 b1 1 (by norm_num),
        ct_gte_step_ne a0 b0 1 (by norm_num)]
      have hv : b0 + 2 ^ 64 * b1 + 2 ^ 128 * b2 + 2 ^ 192 * b3 ≤
          a0 + 2 ^ 64 * a1 + 2 ^ 128 * a2 + 2 ^ 192 * a3 := by omega
      simp only [decide_eq_decide]
      omega
  · rw [ct_gte_step_gt _ _ h3, ct_gte_step_ne a2 b2 1 (by norm_num),
      ct_gte_step_ne a1 b1 1 (by norm_num), ct_gte_step_ne a0 b0 1 (by norm_num)]
    have hv : b0 + 2 ^ 64 * b1 + 2 ^ 128 * b2 + 2 ^ 192 * b3 ≤
        a0 + 2 ^ 64 * a1 + 2 ^ 128 * a2 + 2 ^ 192 * a3 := by omega
    simp only [decide_eq_decide]
    omega

theorem sbb_spec (a b c : Nat) (ha : a < 2 ^ 64) (hb : b < 2 ^ 64) (hc : c ≤ 1) :
    (sbb a b c).1 + b + c = a + 2 ^ 64 * (sbb a b c).2 ∧
    (sbb a b c).1 < 2 ^ 64 ∧ (sbb a b c).2 ≤ 1 ∧ ((sbb a b c).2 = 0 ↔ b + c ≤ a) := by
  unfold sbb
  dsimp only
  split <;> (dsimp only; refine ⟨by omega, by omega, by omega, by omega⟩)

/-- Value/borrow characterisation of the shared 4-limb borrow chain. -/
theorem sub_limbs_spec (a b : Fr) (ha : a.Wf) (hb : b.Wf) :
    (Fr.sub_limbs a b).1.val + b.val = a.val + 2 ^ 256 * (Fr.sub_limbs a b).2 ∧
    (Fr.sub_limbs a b).1.Wf ∧ (Fr.sub_limbs a b).2 ≤ 1 ∧
    ((Fr.sub_limbs a b).2 = 0 ↔ b.val ≤ a.val) := by
  obtain ⟨a0, a1, a2, a3⟩ := a
  obtain ⟨b0, b1, b2, b3⟩ := b
  obtain ⟨ha0, ha1, ha2, ha3⟩ := ha
  obtain ⟨hb0, hb1, hb2, hb3⟩ := hb
  simp only at ha0 ha1 ha2 ha3 hb0 hb1 hb2 hb3
  have h0 := sbb_spec a0 b0 0 ha0 hb0 (by omega)
  have h1 := sbb_spec a1 b1 (sbb a0 b0 0).2 ha1 hb1 h0.2.2.1
  have h2 := sbb_spec a2 b2 (sbb a1 b1 (sbb a0 b0 0).2).2 ha2 hb2 h1.2.2.1
  have h3 := sbb_spec a3 b3 (sbb a2 b2 (sbb a1 b1 (sbb a0 b0 0).2).2).2 ha3 hb3
    h2.2.2.1
  obtain ⟨e0, w0, c0, i0⟩ := h0
  obtain ⟨e1, w1, c1, i1⟩ := h1
  obtain ⟨e2, w2, c2, i2⟩ := h2
  obtain ⟨e3, w3, c3, i3⟩ := h3
  unfold Fr.sub_limbs Fr.val Fr.Wf
  dsimp only
  refine ⟨by omega, ⟨by omega, by omega, by omega, by omega⟩, by omega, by omega⟩

/-- Value/carry characterisation of the shared 4-limb carry chain. -/
theorem add_limbs_spec (a b : Fr) (ha : a.Wf) (hb : b.Wf) :
    (Fr.add_limbs a b).1.val + 2 ^ 256 * (Fr.add_limbs a b).2 = a.val + b.val ∧
    (Fr.add_limbs a b).1.Wf ∧ (Fr.add_limbs a b).2 ≤ 1 := by
  obtain ⟨a0, a1, a2, a3⟩ := a
  obtain ⟨b0, b1, b2, b3⟩ := b
  obtain ⟨ha0, ha1, ha2, ha3⟩ := ha
  obtain ⟨hb0, hb1, hb2, hb3⟩ := hb
  simp only at ha0 ha1 ha2 ha3 hb0 hb1 hb2 hb3
  unfold Fr.add_limbs Fr.val Fr.Wf
  dsimp only
  refine ⟨by omega, ⟨by omega, by omega, by omega, by omega⟩, by omega⟩

/-! ## Modulus literal facts -/

theorem modulus_fr_wf : MODULUS_FR.Wf := by decide

theorem modulus_fr_val : MODULUS_FR.val = rVal := by decide

theorem rVal_lt : rVal < 2 ^ 255 := by decide

theorem rVal_eq : rVal = 21888242871839275222246405745257275088548364400416034343698204186575808495617 := rfl

/-- The shared "subtract `r` once, branch-free" tail of `add` and `mul`. -/
theorem reduce_once_spec (x : Fr) (hx : x.Wf) (hlt : x.val < 2 * rVal) :
    (ct_select (ct_gte x MODULUS_FR) x.sub_modulus x).val = x.val % rVal ∧
    (ct_select (ct_gte x MODULUS_FR) x.sub_modulus x).Wf := by
  obtain ⟨hsub, hswf, hbor, hiff⟩ := sub_limbs_spec x MODULUS_FR hx modulus_fr_wf
  rw [modulus_fr_val] at hsub hiff
  rw [ct_gte_spec x MODULUS_FR hx modulus_fr_wf, modulus_fr_val]
  unfold Fr.sub_modulus
  rw [ct_select_eq _ _ _ hswf hx]
  by_cases hge : rVal ≤ x.val
  · rw [decide_eq_true hge, if_pos rfl]
    have hb0 : (Fr.sub_limbs x MODULUS_FR).2 = 0 := hiff.mpr hge
    refine ⟨?_, hswf⟩
    rw [rVal_eq] at *
    omega
  · rw [decide_eq_false hge]
    simp only [Bool.false_eq_true, if_false]
    refine ⟨?_, hx⟩
    rw [rVal_eq] at *
    omega

/-- C4, `add` part: canonical inputs give `(a + b) mod r`, canonically. -/
theorem Fr.add_spec (a b : Fr) (ha : a.Canonical) (hb : b.Canonical) :
    (a.add b).Canonical ∧ (a.add b).val = (a.val + b.val) % rVal := by
  obtain ⟨haw, hav⟩ := ha
  obtain ⟨hbw, hbv⟩ := hb
  obtain ⟨hsum, hrwf, hcle⟩ := add_limbs_spec a b haw hbw
  have hrv := rVal_lt
  have hcarry : (Fr.add_limbs a b).2 = 0 := by omega
  unfold Fr.add
  dsimp only
  rw [hcarry]
  rw [show decide (0 < 0) = false from rfl, Bool.false_or]
  obtain ⟨hval, hwf⟩ := reduce_once_spec (Fr.add_limbs a b).1 hrwf (by omega)
  have hmod : (Fr.add_limbs a b).1.val % rVal = (a.val + b.val) % rVal := by
    rw [show (Fr.add_limbs a b).1.val = a.val + b.val by omega]
  refine ⟨⟨hwf, ?_⟩, ?_⟩
  · rw [hval, hmod]
    exact Nat.mod_lt _ (by rw [rVal_eq]; omega)
  · rw [hval, hmod]

/-- C4, `sub` part: canonical inputs give `(a − b) mod r` (as integers),
canonically. -/
theorem Fr.sub_spec (a b : Fr) (ha : a.Canonical) (hb : b.Canonical) :
    (a.sub b).Canonical ∧
    ((a.sub b).val : Int) = ((a.val : Int) - b.val) % (rVal : Int) := by
  obtain ⟨haw, hav⟩ := ha
  obtain ⟨hbw, hbv⟩ := hb
  obtain ⟨hd, hdwf, hdb, hdiff⟩ := sub_limbs_spec a b haw hbw
  obtain ⟨hm, hmwf, hmc⟩ := add_limbs_spec a MODULUS_FR haw modulus_fr_wf
  rw [modulus_fr_val] at hm
  have hrv := rVal_lt
  have hmc0 : (Fr.add_limbs a MODULUS_FR).2 = 0 := by omega
  obtain ⟨hw, hwwf, hwb, hwiff⟩ :=
    sub_limbs_spec (Fr.add_limbs a MODULUS_FR).1 b hmwf hbw
  unfold Fr.sub
  dsimp only
  unfold Fr.sub_internal Fr.add_modulus
  rw [ct_gte_spec a b haw hbw]
  rw [ct_select_eq _ _ _ hdwf hwwf]
  by_cases hge : b.val ≤ a.val
  · rw [decide_eq_true hge, if_pos rfl]
    have hb0 : (Fr.sub_limbs a b).2 = 0 := hdiff.mpr hge
    refine ⟨⟨hdwf, ?_⟩, ?_⟩ <;> (rw [rVal_eq] at *; omega)
  · rw [decide_eq_false hge]
    simp only [Bool.false_eq_true, if_false]
    have hwb0 : (Fr.sub_limbs (Fr.add_limbs a MODULUS_FR).1 b).2 = 0 := by
      apply hwiff.mpr
      omega
    refine ⟨⟨hwwf, ?_⟩, ?_⟩ <;> (rw [rVal_eq] at *; omega)

/-! ## CIOS Montgomery multiplication correctness -/

/-- `Limbs5` well-formedness. -/
def Limbs5.Wf (t : Limbs5) : Prop :=
  t.t0 < 2 ^ 64 ∧ t.t1 < 2 ^ 64 ∧ t.t2 < 2 ^ 64 ∧ t.t3 < 2 ^ 64 ∧ t.t4 < 2 ^ 64

/-- The Montgomery constant kills the low limb: `p'·MODULUS[0] ≡ −1 (mod 2^64)`,
so the reduction step's dropped low word is zero. -/
theorem mont_div (u : Nat) :
    (u % 2 ^ 64 + u % 2 ^ 64 * P_PRIME % 2 ^ 64 * M0) % 2 ^ 64 = 0 := by
  have h1 : (2 ^ 64 : Nat) ∣ 1 + P_PRIME * M0 := by decide
  have h2 : u % 2 ^ 64 * P_PRIME % 2 ^ 64 * M0 ≡
      u % 2 ^ 64 * P_PRIME * M0 [MOD 2 ^ 64] :=
    (Nat.mod_modEq _ _).mul_right _
  have h3 : u % 2 ^ 64 + u % 2 ^ 64 * P_PRIME % 2 ^ 64 * M0 ≡
      u % 2 ^ 64 + u % 2 ^ 64 * P_PRIME * M0 [MOD 2 ^ 64] :=
    h2.add_left _
  have h4 : u % 2 ^ 64 + u % 2 ^ 64 * P_PRIME * M0 =
      u % 2 ^ 64 * (1 + P_PRIME * M0) := by ring
  have h5 : u % 2 ^ 64 * (1 + P_PRIME * M0) ≡ 0 [MOD 2 ^ 64] :=
    (Nat.modEq_zero_iff_dvd).mpr (Dvd.dvd.mul_left h1 _)
  have h6 := h3.trans (h4 ▸ h5)
  simpa [Nat.ModEq] using h6

set_option maxHeartbeats 1000000 in
/-- Multiply-accumulate phase: exact value accounting (nothing overflows while
the invariant `t ≤ b + r − 1` holds). -/
theorem ciosMulAcc_spec (t : Limbs5) (ai : Nat) (b : Fr)
    (ht : t.Wf) (hai : ai < 2 ^ 64) (hb : b.Wf) (hbv : b.val < rVal)
    (htv : t.val ≤ b.val + rVal - 1) :
    (ciosMulAcc t ai b).val = t.val + ai * b.val ∧ (ciosMulAcc t ai b).Wf := by
  obtain ⟨T0, T1, T2, T3, T4⟩ := t
  obtain ⟨B0, B1, B2, B3⟩ := b
  obtain ⟨hT0, hT1, hT2, hT3, hT4⟩ := ht
  obtain ⟨hB0, hB1, hB2, hB3⟩ := hb
  simp only at hT0 hT1 hT2 hT3 hT4 hB0 hB1 hB2 hB3
  have hp0 : ai * B0 ≤ (2 ^ 64 - 1) * B0 := Nat.mul_le_mul_right B0 (by omega)
  have hp1 : ai * B1 ≤ (2 ^ 64 - 1) * B1 := Nat.mul_le_mul_right B1 (by omega)
  have hp2 : ai * B2 ≤ (2 ^ 64 - 1) * B2 := Nat.mul_le_mul_right B2 (by omega)
  have hp3 : ai * B3 ≤ (2 ^ 64 - 1) * B3 := Nat.mul_le_mul_right B3 (by omega)
  have hPB : ai * (B0 + 2 ^ 64 * B1 + 2 ^ 128 * B2 + 2 ^ 192 * B3) =
      ai * B0 + 2 ^ 64 * (ai * B1) + 2 ^ 128 * (ai * B2) + 2 ^ 192 * (ai * B3) := by
    ring
  simp only [ciosMulAcc, Limbs5.val, Limbs5.Wf, Fr.val, rVal] at hbv htv ⊢
  rw [hPB]
  omega

set_option maxHeartbeats 1000000 in
/-- Montgomery-reduction phase: `t_out · 2^64 = t_in + m·r` exactly, where
`m = t[0]·p' mod 2^64` (the dropped low word is zero by `mont_div`). -/
theorem ciosRed_spec (u : Limbs5) (hu : u.Wf) :
    2 ^ 64 * (ciosRed u).val = u.val + u.t0 * P_PRIME % 2 ^ 64 * rVal ∧
    (ciosRed u).Wf := by
  obtain ⟨U0, U1, U2, U3, U4⟩ := u
  obtain ⟨hU0, hU1, hU2, hU3, hU4⟩ := hu
  simp only at hU0 hU1 hU2 hU3 hU4
  have hdiv := mont_div U0
  rw [Nat.mod_eq_of_lt hU0] at hdiv
  simp only [M0, P_PRIME] at hdiv
  simp only [ciosRed, Limbs5.val, Limbs5.Wf, M0, M1, M2, M3, P_PRIME, rVal] at *
  omega

/-- One CIOS round: exact value accounting (`t_out · 2^64 = t_in + aᵢ·b + m·r`),
bound preservation, and limb well-formedness. -/
theorem ciosRound_spec (t : Limbs5) (ai : Nat) (b : Fr)
    (ht : t.Wf) (hai : ai < 2 ^ 64) (hb : b.Wf) (hbv : b.val < rVal)
    (htv : t.val ≤ b.val + rVal - 1) :
    ∃ m : Nat, 2 ^ 64 * (ciosRound t ai b).val = t.val + ai * b.val + m * rVal ∧
      (ciosRound t ai b).val ≤ b.val + rVal - 1 ∧ (ciosRound t ai b).Wf := by
  obtain ⟨hacc, haccwf⟩ := ciosMulAcc_spec t ai b ht hai hb hbv htv
  obtain ⟨hred, hredwf⟩ := ciosRed_spec (ciosMulAcc t ai b) haccwf
  refine ⟨(ciosMulAcc t ai b).t0 * P_PRIME % 2 ^ 64, ?_, ?_, hredwf⟩
  · unfold ciosRound
    rw [hred, hacc]
  · have hr1 : 1 ≤ rVal := by rw [rVal_eq]; omega
    have hmul : ai * b.val ≤ (2 ^ 64 - 1) * b.val :=
      Nat.mul_le_mul_right b.val (by omega)
    have hmr : (ciosMulAcc t ai b).t0 * P_PRIME % 2 ^ 64 * rVal ≤
        (2 ^ 64 - 1) * rVal :=
      Nat.mul_le_mul_right rVal (by omega)
    have hround : 2 ^ 64 * (ciosRound t ai b).val =
        t.val + ai * b.val + (ciosMulAcc t ai b).t0 * P_PRIME % 2 ^ 64 * rVal := by
      unfold ciosRound
      rw [hred, hacc]
    omega

/-- A full CIOS pass: `t · 2^256 = x·b + M·r` for some `M`, with the result
bounded by `b + r − 1` and well-formed. -/
theorem cios_spec (x b : Fr) (hx : x.Wf) (hb : b.Wf) (hbv : b.val < rVal) :
    ∃ M : Nat, 2 ^ 256 * (cios x b).val = x.val * b.val + M * rVal ∧
      (cios x b).val ≤ b.val + rVal - 1 ∧ (cios x b).Wf := by
  have hr1 : 1 ≤ rVal := by rw [rVal_eq]; omega
  have hz : Limbs5.Wf ⟨0, 0, 0, 0, 0⟩ := by
    refine ⟨?_, ?_, ?_, ?_, ?_⟩ <;> (show 0 < 2 ^ 64; omega)
  have hz0 : Limbs5.val ⟨0, 0, 0, 0, 0⟩ = 0 := by
    simp [Limbs5.val]
  have hzv : Limbs5.val ⟨0, 0, 0, 0, 0⟩ ≤ b.val + rVal - 1 := by
    rw [hz0]
    omega
  obtain ⟨m0, e0, bd0, wf0⟩ := ciosRound_spec ⟨0, 0, 0, 0, 0⟩ x.l0 b hz hx.1 hb hbv hzv
  obtain ⟨m1, e1, bd1, wf1⟩ := ciosRound_spec _ x.l1 b wf0 hx.2.1 hb hbv bd0
  obtain ⟨m2, e2, bd2, wf2⟩ := ciosRound_spec _ x.l2 b wf1 hx.2.2.1 hb hbv bd1
  obtain ⟨m3, e3, bd3, wf3⟩ := ciosRound_spec _ x.l3 b wf2 hx.2.2.2 hb hbv bd2
  refine ⟨m0 + 2 ^ 64 * m1 + 2 ^ 128 * m2 + 2 ^ 192 * m3, ?_, bd3, wf3⟩
  have hXV : x.val * b.val = x.l0 * b.val + 2 ^ 64 * (x.l1 * b.val) +
      2 ^ 128 * (x.l2 * b.val) + 2 ^ 192 * (x.l3 * b.val) := by
    unfold Fr.val
    ring
  unfold cios
  rw [hXV]
  rw [rVal_eq] at e0 e1 e2 e3 ⊢
  omega

/-- `R²` literal facts. -/
theorem r2_fr_wf : R2_FR.Wf := by decide

theorem r2_fr_lt : R2_FR.val < rVal := by decide

set_option maxRecDepth 10000 in
theorem r2_fr_val : R2_FR.val = 2 ^ 512 % rVal := by decide

/-- One Montgomery pass of `Fr::mul`: canonical result `x·b·R⁻¹ mod r` in the
sense `2^256 · out ≡ x·b (mod r)`. -/
theorem montPass_spec (x b : Fr) (hx : x.Wf) (hb : b.Wf) (hbv : b.val < rVal) :
    (montPass x b).Wf ∧ (montPass x b).val < rVal ∧
    2 ^ 256 * (montPass x b).val ≡ x.val * b.val [MOD rVal] := by
  obtain ⟨Mm, e1, bd1, wf1⟩ := cios_spec x b hx hb hbv
  have hr1 : 1 ≤ rVal := by rw [rVal_eq]; omega
  unfold montPass
  dsimp only
  obtain ⟨w0, w1, w2, w3, w4⟩ := wf1
  have hT4 : (cios x b).t4 = 0 := by
    have h2 := rVal_lt
    unfold Limbs5.val at bd1
    omega
  have hmrv : (⟨(cios x b).t0, (cios x b).t1, (cios x b).t2, (cios x b).t3⟩ : Fr).val
      = (cios x b).val := by
    simp only [Fr.val, Limbs5.val, hT4]
    omega
  have hmrw : Fr.Wf ⟨(cios x b).t0, (cios x b).t1, (cios x b).t2, (cios x b).t3⟩ :=
    ⟨w0, w1, w2, w3⟩
  rw [hT4, show decide (0 < 0) = false from rfl, Bool.or_false]
  unfold Fr.gte_modulus
  obtain ⟨hrv, hrw⟩ := reduce_once_spec
    ⟨(cios x b).t0, (cios x b).t1, (cios x b).t2, (cios x b).t3⟩ hmrw
    (by rw [hmrv]; omega)
  refine ⟨hrw, ?_, ?_⟩
  · rw [hrv, hmrv]
    exact Nat.mod_lt _ (by omega)
  · rw [hrv, hmrv]
    unfold Nat.ModEq
    rw [rVal_eq] at e1 ⊢
    omega

/-- C4, `mul` part: canonical inputs give `a·b mod r`, canonically. -/
theorem Fr.mul_spec (a b : Fr) (ha : a.Canonical) (hb : b.Canonical) :
    (a.mul b).Canonical ∧ (a.mul b).val = a.val * b.val % rVal := by
  obtain ⟨haw, hav⟩ := ha
  obtain ⟨hbw, hbv⟩ := hb
  obtain ⟨h1w, h1lt, h1e⟩ := montPass_spec a b haw hbw hbv
  obtain ⟨h2w, h2lt, h2e⟩ := montPass_spec (montPass a b) R2_FR h1w r2_fr_wf r2_fr_lt
  unfold Fr.mul
  refine ⟨⟨h2w, h2lt⟩, ?_⟩
  rw [r2_fr_val] at h2e
  have h2e' : 2 ^ 256 * (montPass (montPass a b) R2_FR).val ≡
      (montPass a b).val * 2 ^ 512 [MOD rVal] :=
    h2e.trans (Nat.ModEq.mul_left _ (Nat.mod_modEq _ _))
  rw [show (montPass a b).val * 2 ^ 512 =
    2 ^ 256 * ((montPass a b).val * 2 ^ 256) by ring] at h2e'
  have hco : Nat.gcd rVal (2 ^ 256) = 1 := by
    have h2 : Nat.Coprime rVal 2 := by
      rw [Nat.coprime_two_right, Nat.odd_iff, rVal_eq]
    exact Nat.Coprime.pow_right 256 h2
  have hcan : (montPass (montPass a b) R2_FR).val ≡
      (montPass a b).val * 2 ^ 256 [MOD rVal] :=
    Nat.ModEq.cancel_left_of_coprime hco h2e'
  have hfin : (montPass (montPass a b) R2_FR).val ≡ a.val * b.val [MOD rVal] := by
    refine hcan.trans ?_
    rw [mul_comm]
    exact h1e
  have hmod : (montPass (montPass a b) R2_FR).val % rVal = a.val * b.val % rVal :=
    hfin
  rw [← hmod, Nat.mod_eq_of_lt h2lt]

/-! ## Decimal ingress (`Fr::from_str`) -/

theorem Fr.from_u64_val (n : Nat) : (Fr.from_u64 n).val = n := by
  simp [Fr.val, Fr.from_u64]

theorem Fr.from_u64_canonical (n : Nat) (h : n < 2 ^ 64) :
    (Fr.from_u64 n).Canonical := by
  unfold Fr.Canonical Fr.Wf Fr.from_u64 Fr.val
  dsimp only
  refine ⟨⟨h, by omega, by omega, by omega⟩, ?_⟩
  rw [rVal_eq]
  omega

theorem Fr.zero_canonical : Fr.ZERO.Canonical := by decide

/-- The value denoted by the decimal digits of `s`, non-digits skipped
(specification side). -/
def digitsVal (s : String) : Nat :=
  s.data.foldl (fun n c => if c.isDigit then n * 10 + (c.toNat - 48) else n) 0

/-- The `from_str` fold keeps a canonical accumulator holding the digit value
modulo `r`. -/
theorem from_str_fold (cs : List Char) : ∀ (acc : Fr) (n : Nat), acc.Canonical →
    acc.val = n % rVal →
    ((cs.foldl (fun result c =>
        match charDigit c with
        | some digit => (result.mul (Fr.from_u64 10)).add (Fr.from_u64 digit)
        | none => result) acc).Canonical ∧
      (cs.foldl (fun result c =>
        match charDigit c with
        | some digit => (result.mul (Fr.from_u64 10)).add (Fr.from_u64 digit)
        | none => result) acc).val =
      (cs.foldl (fun n c => if c.isDigit then n * 10 + (c.toNat - 48) else n) n) % rVal) := by
  induction cs with
  | nil => exact fun acc n hc hv => ⟨hc, hv⟩
  | cons c rest ih =>
    intro acc n hc hv
    rw [List.foldl_cons, List.foldl_cons]
    by_cases hd : c.isDigit
    · simp only [charDigit, if_pos hd]
      have hdval : c.toNat - 48 < 2 ^ 64 := by
        have h := c.val.toNat_lt
        unfold Char.toNat
        omega
      have hten : (Fr.from_u64 10).Canonical := Fr.from_u64_canonical 10 (by omega)
      have hdig : (Fr.from_u64 (c.toNat - 48)).Canonical :=
        Fr.from_u64_canonical _ hdval
      obtain ⟨hmc, hmv⟩ := Fr.mul_spec acc (Fr.from_u64 10) hc hten
      obtain ⟨hac, hav⟩ := Fr.add_spec (acc.mul (Fr.from_u64 10))
        (Fr.from_u64 (c.toNat - 48)) hmc hdig
      refine ih _ (n * 10 + (c.toNat - 48)) hac ?_
      rw [hav, hmv, Fr.from_u64_val, Fr.from_u64_val, hv]
      rw [rVal_eq]
      omega
    · simp only [charDigit, if_neg hd]
      exact ih acc n hc hv

/-- C6 amended: `Fr::from_str` never fails — every string yields a canonical
field element, namely the value of its decimal digits (non-digits skipped)
reduced modulo `r`. -/
theorem C6_from_str_never_fails : ∀ s : String,
    (Fr.from_str s).Canonical ∧ (Fr.from_str s).val = digitsVal s % rVal := by
  intro s
  unfold Fr.from_str digitsVal
  by_cases h0 : s = ""
  · subst h0
    exact ⟨Fr.zero_canonical, by decide⟩
  · by_cases h1 : s = "0"
    · subst h1
      exact ⟨Fr.zero_canonical, by decide⟩
    · rw [if_neg (by simp [h0, h1])]
      exact from_str_fold s.data Fr.ZERO 0 Fr.zero_canonical (by decide)

/-- Well-formed limbs are determined by their value (uniqueness of the base
`2^64` representation). -/
theorem Fr.val_inj (x y : Fr) (hx : x.Wf) (hy : y.Wf) (h : x.val = y.val) :
    x = y := by
  obtain ⟨x0, x1, x2, x3⟩ := x
  obtain ⟨y0, y1, y2, y3⟩ := y
  obtain ⟨hx0, hx1, hx2, hx3⟩ := hx
  obtain ⟨hy0, hy1, hy2, hy3⟩ := hy
  simp only at hx0 hx1 hx2 hx3 hy0 hy1 hy2 hy3
  unfold Fr.val at h
  simp only at h
  have e0 : x0 = y0 := by omega
  have e1 : x1 = y1 := by omega
  have e2 : x2 = y2 := by omega
  have e3 : x3 = y3 := by omega
  subst e0
  subst e1
  subst e2
  subst e3
  rfl

set_option maxRecDepth 8000 in
/-- C6 counterexample: decimal ingress is not rejected — a non-decimal string
yields a value (the non-digit is skipped), and the out-of-range value `r`
itself yields `0` (reduced), with no `InvalidFieldElement` error anywhere. -/
theorem C6_ingress_accepts :
    Fr.from_str "1a" = Fr.from_u64 1 ∧
    Fr.from_str "21888242871839275222246405745257275088548364400416034343698204186575808495617" =
      Fr.ZERO := by
  obtain ⟨hc1, hv1⟩ := C6_from_str_never_fails "1a"
  obtain ⟨hc2, hv2⟩ := C6_from_str_never_fails
    "21888242871839275222246405745257275088548364400416034343698204186575808495617"
  constructor
  · refine Fr.val_inj _ _ hc1.1 (Fr.from_u64_canonical 1 (by omega)).1 ?_
    rw [hv1, Fr.from_u64_val]
    decide
  · refine Fr.val_inj _ _ hc2.1 Fr.zero_canonical.1 ?_
    rw [hv2]
    decide

/-! ## C4: field arithmetic -/

set_option maxRecDepth 8000 in
/-- C4: on canonical inputs, `add`, `sub` and `mul` compute `(a+b) mod r`,
`(a−b) mod r` and `(a·b) mod r`, each result canonical in `[0, r)`; and the
two concrete scenarios `(r−1) + 1 = 0` and `1000 · 2000 = 2000000` hold. -/
theorem C4_fr_field_arithmetic :
    (∀ a b : Fr, a.Canonical → b.Canonical →
      ((a.add b).val = (a.val + b.val) % rVal ∧ (a.add b).Canonical) ∧
      (((a.sub b).val : Int) = ((a.val : Int) - b.val) % (rVal : Int) ∧
        (a.sub b).Canonical) ∧
      ((a.mul b).val = a.val * b.val % rVal ∧ (a.mul b).Canonical)) ∧
    (Fr.from_str "21888242871839275222246405745257275088548364400416034343698204186575808495616").add
      (Fr.from_u64 1) = Fr.ZERO ∧
    (Fr.from_u64 1000).mul (Fr.from_u64 2000) = Fr.from_u64 2000000 := by
  refine ⟨fun a b ha hb =>
    ⟨⟨(Fr.add_spec a b ha hb).2, (Fr.add_spec a b ha hb).1⟩,
     ⟨(Fr.sub_spec a b ha hb).2, (Fr.sub_spec a b ha hb).1⟩,
     ⟨(Fr.mul_spec a b ha hb).2, (Fr.mul_spec a b ha hb).1⟩⟩, ?_, ?_⟩
  · obtain ⟨hc, hv⟩ := C6_from_str_never_fails
      "21888242871839275222246405745257275088548364400416034343698204186575808495616"
    obtain ⟨hac, hav⟩ := Fr.add_spec _ (Fr.from_u64 1) hc
      (Fr.from_u64_canonical 1 (by omega))
    refine Fr.val_inj _ _ hac.1 Fr.zero_canonical.1 ?_
    rw [hav, hv, Fr.from_u64_val]
    decide
  · obtain ⟨hmc, hmv⟩ := Fr.mul_spec (Fr.from_u64 1000) (Fr.from_u64 2000)
      (Fr.from_u64_canonical 1000 (by omega)) (Fr.from_u64_canonical 2000 (by omega))
    refine Fr.val_inj _ _ hmc.1 (Fr.from_u64_canonical 2000000 (by omega)).1 ?_
    rw [hmv]
    simp only [Fr.from_u64_val]
    rw [rVal_eq]

/-! ## Poseidon permutation structure (poseidon.rs, `poseidon_t3`)

The constant tables `C_T3_FR` (195 round constants) and `M_T3_FR` (3×3 MDS
matrix) live in `poseidon_precomputed.rs`, which `lib.rs` declares but which is
not among the source files. Modelled from the spec: the spec says only that
they are precomputed `Fr` literals matching circomlibjs, without listing their
values, so they appear below as parameters `c` and `m`; everything proved here
holds for every table of the right shape. Only the round structure — which is
in `poseidon.rs` — is verified; the concrete circomlibjs output values cannot
be evaluated without the tables. -/

/-- A width-3 Poseidon state (`[Fr; 3]` in the source). -/
structure State3 where
  s0 : Fr
  s1 : Fr
  s2 : Fr
deriving DecidableEq

/-- `mds_multiply_t3`: `result[i] = Σ_j state[j] · m[i][j]`, accumulated with
`Fr.add` from zero exactly as the source's double loop. -/
def mds_multiply_t3 (state : State3) (m : Fin 3 → Fin 3 → Fr) : State3 :=
  ⟨((Fr.ZERO.add (state.s0.mul (m 0 0))).add (state.s1.mul (m 0 1))).add
      (state.s2.mul (m 0 2)),
   ((Fr.ZERO.add (state.s0.mul (m 1 0))).add (state.s1.mul (m 1 1))).add
      (state.s2.mul (m 1 2)),
   ((Fr.ZERO.add (state.s0.mul (m 2 0))).add (state.s1.mul (m 2 1))).add
      (state.s2.mul (m 2 2))⟩

/-- The add-round-constants step with the source's `round * T + i < c.len()`
guard on every constant. -/
def ark_t3 (c : List Fr) (round : Nat) (s : State3) : State3 :=
  ⟨if round * 3 + 0 < c.length then s.s0.add (c.getD (round * 3 + 0) Fr.ZERO) else s.s0,
   if round * 3 + 1 < c.length then s.s1.add (c.getD (round * 3 + 1) Fr.ZERO) else s.s1,
   if round * 3 + 2 < c.length then s.s2.add (c.getD (round * 3 + 2) Fr.ZERO) else s.s2⟩

/-- A full round: constants, S-box on every element, MDS. -/
def fullRound (c : List Fr) (m : Fin 3 → Fin 3 → Fr) (round : Nat)
    (s : State3) : State3 :=
  let t := ark_t3 c round s
  mds_multiply_t3 ⟨t.s0.pow5, t.s1.pow5, t.s2.pow5⟩ m

/-- A partial round: constants, S-box on `state[0]` only, MDS. -/
def partialRound (c : List Fr) (m : Fin 3 → Fin 3 → Fr) (round : Nat)
    (s : State3) : State3 :=
  let t := ark_t3 c round s
  mds_multiply_t3 ⟨t.s0.pow5, t.s1, t.s2⟩ m

/-- `for _ in 0..n { state = step(round, state); round += 1 }`. -/
def applyRounds (step : Nat → State3 → State3) : Nat → Nat → State3 → State3
  | _, 0, s => s
  | r, n + 1, s => applyRounds step (r + 1) n (step r s)

/-- `poseidon_t3` (poseidon.rs): asserts at most two inputs (`none` = panic),
initialises `[0, input₁, input₂]`, runs 4 full rounds from round 0, 57 partial
rounds from round 4, 4 full rounds from round 61, and returns `state[0]`. -/
def poseidon_t3 (c : List Fr) (m : Fin 3 → Fin 3 → Fr) (inputs : List Fr) :
    Option Fr :=
  if 2 < inputs.length then none
  else
    let state : State3 := ⟨Fr.ZERO, inputs.getD 0 Fr.ZERO, inputs.getD 1 Fr.ZERO⟩
    let state := applyRounds (fullRound c m) 0 4 state
    let state := applyRounds (partialRound c m) 4 57 state
    let state := applyRounds (fullRound c m) 61 4 state
    some state.s0

/-! Specification-side permutation, following the claim's words: 4 full rounds,
57 partial rounds (S-box on `state[0]` only), 4 full rounds; each round adds
the constants `C[3i + j]`, applies the S-box, then multiplies by the MDS
matrix; no index guards. -/

/-- One spec-side full round. -/
def specFullRound (c : List Fr) (m : Fin 3 → Fin 3 → Fr) (i : Nat)
    (s : State3) : State3 :=
  let t : State3 := ⟨s.s0.add (c.getD (3 * i) Fr.ZERO),
    s.s1.add (c.getD (3 * i + 1) Fr.ZERO), s.s2.add (c.getD (3 * i + 2) Fr.ZERO)⟩
  mds_multiply_t3 ⟨t.s0.pow5, t.s1.pow5, t.s2.pow5⟩ m

/-- One spec-side partial round. -/
def specPartialRound (c : List Fr) (m : Fin 3 → Fin 3 → Fr) (i : Nat)
    (s : State3) : State3 :=
  let t : State3 := ⟨s.s0.add (c.getD (3 * i) Fr.ZERO),
    s.s1.add (c.getD (3 * i + 1) Fr.ZERO), s.s2.add (c.getD (3 * i + 2) Fr.ZERO)⟩
  mds_multiply_t3 ⟨t.s0.pow5, t.s1, t.s2⟩ m

/-- The claim's permutation on initial state `[0, a, b]`, returning `state[0]`. -/
def specPoseidonPermute (c : List Fr) (m : Fin 3 → Fin 3 → Fr) (a b : Fr) : Fr :=
  (applyRounds (specFullRound c m) 61 4
    (applyRounds (specPartialRound c m) 4 57
      (applyRounds (specFullRound c m) 0 4 ⟨Fr.ZERO, a, b⟩))).s0

theorem applyRounds_congr (f g : Nat → State3 → State3) : ∀ (n r : Nat) (s : State3),
    (∀ k s', r ≤ k → k < r + n → f k s' = g k s') →
    applyRounds f r n s = applyRounds g r n s := by
  intro n
  induction n with
  | zero => intro r s _; rfl
  | succ n ih =>
    intro r s h
    show applyRounds f (r + 1) n (f r s) = applyRounds g (r + 1) n (g r s)
    rw [h r s (by omega) (by omega)]
    exact ih (r + 1) (g r s) (fun k s' hk1 hk2 => h k s' (by omega) (by omega))

theorem fullRound_eq_spec (c : List Fr) (m : Fin 3 → Fin 3 → Fr)
    (hc : c.length = 195) (k : Nat) (hk : k < 65) (s : State3) :
    fullRound c m k s = specFullRound c m k s := by
  unfold fullRound specFullRound ark_t3
  rw [if_pos (by omega), if_pos (by omega), if_pos (by omega)]
  rw [Nat.mul_comm k 3]
  rw [Nat.add_zero]

theorem partialRound_eq_spec (c : List Fr) (m : Fin 3 → Fin 3 → Fr)
    (hc : c.length = 195) (k : Nat) (hk : k < 65) (s : State3) :
    partialRound c m k s = specPartialRound c m k s := by
  unfold partialRound specPartialRound ark_t3
  rw [if_pos (by omega), if_pos (by omega), if_pos (by omega)]
  rw [Nat.mul_comm k 3]
  rw [Nat.add_zero]

/-- The C5 round structure, for every 195-entry constant table and every MDS
matrix: `poseidon_t3` on `[a, b]` initialises the state to `[0, a, b]`, applies
4 full, 57 partial and 4 full rounds in the claim's ARK → S-box → MDS order,
and returns `state[0]` (no assertion fires). The concrete circomlibjs value of
`poseidon_hash2("1","2")` would additionally need the missing tables. -/
theorem poseidon_t3_matches_spec (c : List Fr) (m : Fin 3 → Fin 3 → Fr)
    (hc : c.length = 195) (a b : Fr) :
    poseidon_t3 c m [a, b] = some (specPoseidonPermute c m a b) := by
  unfold poseidon_t3 specPoseidonPermute
  rw [if_neg (by simp)]
  dsimp only [List.getD, List.get?, Option.getD_some]
  have h1 : applyRounds (fullRound c m) 0 4 ⟨Fr.ZERO, a, b⟩ =
      applyRounds (specFullRound c m) 0 4 ⟨Fr.ZERO, a, b⟩ :=
    applyRounds_congr _ _ 4 0 _
      (fun k s' _ hk2 => fullRound_eq_spec c m hc k (by omega) s')
  rw [h1]
  have h2 : applyRounds (partialRound c m) 4 57
        (applyRounds (specFullRound c m) 0 4 ⟨Fr.ZERO, a, b⟩) =
      applyRounds (specPartialRound c m) 4 57
        (applyRounds (specFullRound c m) 0 4 ⟨Fr.ZERO, a, b⟩) :=
    applyRounds_congr _ _ 57 4 _
      (fun k s' _ hk2 => partialRound_eq_spec c m hc k (by omega) s')
  rw [h2]
  have h3 : applyRounds (fullRound c m) 61 4
        (applyRounds (specPartialRound c m) 4 57
          (applyRounds (specFullRound c m) 0 4 ⟨Fr.ZERO, a, b⟩)) =
      applyRounds (specFullRound c m) 61 4
        (applyRounds (specPartialRound c m) 4 57
          (applyRounds (specFullRound c m) 0 4 ⟨Fr.ZERO, a, b⟩)) :=
    applyRounds_congr _ _ 4 61 _
      (fun k s' _ hk2 => fullRound_eq_spec c m hc k (by omega) s')
  rw [h3]

end NearGroth16
